import Mathlib

/-!
Verification of the time-series analysis routines in `time_series.py`:
`segment_basic` (run-length segmentation of a boolean signal),
`segment_by_threshold` (threshold segmentation with peak extraction) and
`xcov_multi_with_confidence` (pooled lagged cross-covariance with
confidence bounds).

Signals are modelled as `List ℚ`, boolean signals as `List Bool`, index
vectors as `List ℕ`.  The external statistical primitive
`stats.cov_with_confidence` and the numeric square root `np.sqrt` are
parameters of the covariance estimator, mirroring their status as external
collaborators of the library.
-/

namespace TimeSeries

/-- `astype(int)` of a boolean: numpy booleans become 0/1 integers. -/
def b2i (b : Bool) : Int := if b then 1 else 0

/-- Positions selected by `(np.diff(cc([[False], x]).astype(int)) == 1).nonzero()[0]`:
indices `i < len x` where the first difference of `[False] ++ x` equals `+1`
(a rising edge). -/
def risingIdx (x : List Bool) : List ℕ :=
  (List.range x.length).filter fun i =>
    b2i (x.getD i false) - b2i ((false :: x).getD i false) == 1

/-- Positions selected by `(np.diff(cc([x, [False]]).astype(int)) == -1).nonzero()[0]`:
indices `i < len x` where the first difference of `x ++ [False]` equals `-1`
(a falling edge). -/
def fallingIdx (x : List Bool) : List ℕ :=
  (List.range x.length).filter fun i =>
    b2i ((x ++ [false]).getD (i + 1) false) - b2i ((x ++ [false]).getD i false) == -1

/-- `segment_basic(x, t)`: start and end indices of the maximal runs of `True`
in `x`.  `starts = t[rising positions]`, `ends = t[falling positions] + 1`;
the default `t` is `np.arange(len(x))`. -/
def segment_basic (x : List Bool) (t : Option (List ℕ)) : List ℕ × List ℕ :=
  let tt := t.getD (List.range x.length)
  ((risingIdx x).map fun i => tt.getD i 0,
   (fallingIdx x).map fun i => tt.getD i 0 + 1)

/-- `np.max` over a nonempty rational list (0 on the empty list, where numpy
would raise). -/
def np_max : List ℚ → ℚ
  | [] => 0
  | [a] => a
  | a :: b :: rest => max a (np_max (b :: rest))

/-- `np.argmax`: index of the first occurrence of the maximum (0 on the empty
list, where numpy would raise). -/
def np_argmax : List ℚ → ℕ
  | [] => 0
  | [_] => 0
  | a :: b :: rest => if a < np_max (b :: rest) then np_argmax (b :: rest) + 1 else 0

/-- Python slice `x[a:b]` of a list. -/
def pySlice (x : List ℚ) (a b : ℕ) : List ℚ := (x.drop a).take (b - a)

/-- `np.transpose([starts, onsets, peak_times, offsets, ends])`: rows of the
segment table, one 5-tuple per segment. -/
def zip5 : List ℕ → List ℕ → List ℕ → List ℕ → List ℕ → List (ℕ × ℕ × ℕ × ℕ × ℕ)
  | a :: as, b :: bs, c :: cs, d :: ds, e :: es => (a, b, c, d, e) :: zip5 as bs cs ds es
  | _, _, _, _, _ => []

/-- `segment_by_threshold(x, threshold, t)`: segments `x` by the runs of
`x > threshold`, returning rows `[start, onset, peak, offset, end]` (indices
mapped through `t`, default `np.arange(len(x)+1)`) and the peak values. -/
def segment_by_threshold (x : List ℚ) (threshold : ℚ) (t : Option (List ℕ)) :
    List (ℕ × ℕ × ℕ × ℕ × ℕ) × List ℚ :=
  let tt := t.getD (List.range (x.length + 1))
  let oo := segment_basic (x.map fun v => decide (v > threshold)) none
  let onsets := oo.1
  let offsets := oo.2
  if onsets = [] then ([], [])
  else
    let starts := 0 :: offsets.dropLast
    let ends := onsets.tail ++ [x.length]
    let peak_times := (onsets.zip offsets).map fun oe => oe.1 + np_argmax (pySlice x oe.1 oe.2)
    let peak_values := (onsets.zip offsets).map fun oe => np_max (pySlice x oe.1 oe.2)
    (zip5 (starts.map fun i => tt.getD i 0)
          (onsets.map fun i => tt.getD i 0)
          (peak_times.map fun i => tt.getD i 0)
          (offsets.map fun i => tt.getD i 0)
          (ends.map fun i => tt.getD i 0),
     peak_values)

/-- Type of the external `stats.cov_with_confidence` primitive: two pooled
sequences and a confidence level in, `(cov, p_value, lower, upper)` out. -/
abbrev CovCI := List ℚ → List ℚ → ℚ → ℚ × ℚ × ℚ × ℚ

/-- `np.mean` of a rational list (0 on the empty list, where numpy gives NaN). -/
def np_mean (l : List ℚ) : ℚ := l.sum / l.length

/-- `np.cov(a, a)[0, 0]`: the sample variance of `a` with `ddof = 1`
(0 on lists of length ≤ 1, where numpy gives NaN). -/
def np_cov_00 (a : List ℚ) : ℚ :=
  ((a.map fun v => (v - np_mean a) ^ 2).sum) / ((a.length : ℚ) - 1)

/-- The two pooled sequences handed to `cov_with_confidence` at a given lag:
`lag == 0` pools `xs`/`ys` unchanged; `lag < 0` pools `x[-lag:]` against
`y[:lag]` over the series longer than `-lag`; `lag > 0` pools `x[:-lag]`
against `y[lag:]` over the series longer than `lag`. -/
def pooled (xs ys : List (List ℚ)) (lag : ℤ) : List ℚ × List ℚ :=
  if lag = 0 then
    (xs.flatten, ys.flatten)
  else if lag < 0 then
    (((xs.filter fun x => decide ((-lag) < (x.length : ℤ))).map
        fun x => x.drop (-lag).toNat).flatten,
     ((ys.filter fun y => decide ((-lag) < (y.length : ℤ))).map
        fun y => y.take (y.length - (-lag).toNat)).flatten)
  else
    (((xs.filter fun x => decide (lag < (x.length : ℤ))).map
        fun x => x.take (x.length - lag.toNat)).flatten,
     ((ys.filter fun y => decide (lag < (y.length : ℤ))).map
        fun y => y.drop lag.toNat).flatten)

/-- `xcov_multi_with_confidence(xs, ys, lag_backward, lag_forward, confidence, normed)`.
The external covariance primitive and `np.sqrt` are passed in as parameters.
The `ValueError` raised on a length mismatch within a zipped pair becomes
`Except.error`; otherwise the four result sequences are returned, covariances
and bounds divided by `sqrt(var_x * var_y)` when `normed` is set. -/
def xcov_multi_with_confidence (cov_with_confidence : CovCI) (np_sqrt : ℚ → ℚ)
    (xs ys : List (List ℚ)) (lag_backward lag_forward : ℕ)
    (confidence : ℚ) (normed : Bool) :
    Except String (List ℚ × List ℚ × List ℚ × List ℚ) :=
  if ¬ ((xs.zip ys).all fun xy => xy.1.length == xy.2.length) then
    .error "Arrays within xs and ys must all be of the same size!"
  else
    let lags := (List.range (lag_backward + lag_forward)).map
      fun i : ℕ => (i : ℤ) - (lag_backward : ℤ)
    let results := lags.map fun lag =>
      cov_with_confidence (pooled xs ys lag).1 (pooled xs ys lag).2 confidence
    let covs := results.map fun r => r.1
    let p_values := results.map fun r => r.2.1
    let lbs := results.map fun r => r.2.2.1
    let ubs := results.map fun r => r.2.2.2
    if normed then
      let norm_factor := np_sqrt (np_cov_00 xs.flatten * np_cov_00 ys.flatten)
      .ok (covs.map (· / norm_factor), p_values,
           lbs.map (· / norm_factor), ubs.map (· / norm_factor))
    else
      .ok (covs, p_values, lbs, ubs)

/-! ### Run structure of the edge-detection computations -/

/-- Rising-edge positions of a boolean signal, given the value `prev` of the
sample preceding position 0: recursive counterpart of `risingIdx`. -/
def risesFrom (prev : Bool) : List Bool → List ℕ
  | [] => []
  | c :: rest => (if c && !prev then [0] else []) ++ (risesFrom c rest).map (· + 1)

/-- Falling-edge positions of a boolean signal (the last sample of each maximal
true-run): recursive counterpart of `fallingIdx`. -/
def fallsList : List Bool → List ℕ
  | [] => []
  | [c] => if c then [0] else []
  | c :: d :: rest => (if c && !d then [0] else []) ++ (fallsList (d :: rest)).map (· + 1)

lemma risingIdx_aux (p : Bool) (x : List Bool) :
    ((List.range x.length).filter fun i =>
        b2i (x.getD i false) - b2i ((p :: x).getD i false) == 1) = risesFrom p x := by
  induction x generalizing p with
  | nil => rfl
  | cons c rest ih =>
    rw [List.length_cons, List.range_succ_eq_map, List.filter_cons]
    have h0 : (b2i ((c :: rest).getD 0 false) - b2i ((p :: c :: rest).getD 0 false) == 1)
        = (c && !p) := by cases c <;> cases p <;> rfl
    have hmap : (((List.range rest.length).map Nat.succ).filter fun i =>
          b2i ((c :: rest).getD i false) - b2i ((p :: c :: rest).getD i false) == 1)
        = ((List.range rest.length).filter fun i =>
            b2i (rest.getD i false) - b2i ((c :: rest).getD i false) == 1).map Nat.succ := by
      rw [List.filter_map]
      rfl
    rw [h0, hmap, ih c, risesFrom]
    cases c <;> cases p <;> simp [Nat.succ_eq_add_one]

lemma risingIdx_eq (x : List Bool) : risingIdx x = risesFrom false x :=
  risingIdx_aux false x

lemma fallingIdx_eq (x : List Bool) : fallingIdx x = fallsList x := by
  induction x with
  | nil => rfl
  | cons c rest ih =>
    cases rest with
    | nil => cases c <;> rfl
    | cons d rest' =>
      rw [fallingIdx, List.length_cons, List.range_succ_eq_map, List.filter_cons]
      have h0 : (b2i ((c :: d :: rest' ++ [false]).getD (0 + 1) false)
            - b2i ((c :: d :: rest' ++ [false]).getD 0 false) == -1)
          = (c && !d) := by cases c <;> cases d <;> rfl
      have hmap : (((List.range (d :: rest').length).map Nat.succ).filter fun i =>
            b2i ((c :: d :: rest' ++ [false]).getD (i + 1) false)
              - b2i ((c :: d :: rest' ++ [false]).getD i false) == -1)
          = ((List.range (d :: rest').length).filter fun i =>
              b2i ((d :: rest' ++ [false]).getD (i + 1) false)
                - b2i ((d :: rest' ++ [false]).getD i false) == -1).map Nat.succ := by
        rw [List.filter_map]
        rfl
      rw [h0, hmap, ← fallingIdx, ih, fallsList]
      cases c <;> cases d <;> simp [Nat.succ_eq_add_one]

lemma risesFrom_lt (p : Bool) (x : List Bool) : ∀ s ∈ risesFrom p x, s < x.length := by
  induction x generalizing p with
  | nil => intro s hs; cases hs
  | cons c rest ih =>
    intro s hs
    rw [risesFrom, List.mem_append] at hs
    rcases hs with hs | hs
    · have : s = 0 := by
        by_cases h : (c && !p) = true
        · rw [if_pos h] at hs; exact List.mem_singleton.mp hs
        · rw [if_neg h] at hs; cases hs
      simp [this]
    · rcases List.mem_map.mp hs with ⟨a, ha, rfl⟩
      have := ih c a ha
      simp only [List.length_cons]
      omega

lemma fallsList_lt (x : List Bool) : ∀ e ∈ fallsList x, e < x.length := by
  induction x with
  | nil => intro e he; cases he
  | cons c rest ih =>
    cases rest with
    | nil =>
      intro e he
      cases c with
      | true => rw [fallsList] at he; simp_all
      | false => rw [fallsList] at he; simp at he
    | cons d rest' =>
      intro e he
      rw [fallsList, List.mem_append] at he
      rcases he with he | he
      · have : e = 0 := by
          by_cases h : (c && !d) = true
          · rw [if_pos h] at he; exact List.mem_singleton.mp he
          · rw [if_neg h] at he; cases he
        simp [this]
      · rcases List.mem_map.mp he with ⟨a, ha, rfl⟩
        have := ih a ha
        simp only [List.length_cons] at *
        omega

/-- Interleaving of rise positions `S` and fall positions `E`: equal lengths
and `S₀ ≤ E₀ < S₁ ≤ E₁ < ⋯` (each fall bounds all later rises). -/
inductive Alt : List ℕ → List ℕ → Prop
  | nil : Alt [] []
  | cons {s e : ℕ} {S E : List ℕ} (hse : s ≤ e) (hlt : ∀ s' ∈ S, e < s')
      (h : Alt S E) : Alt (s :: S) (e :: E)

lemma Alt.map_add_one {S E : List ℕ} (h : Alt S E) :
    Alt (S.map (· + 1)) (E.map (· + 1)) := by
  induction h with
  | nil => exact Alt.nil
  | cons hse hlt _ ih =>
    rw [List.map_cons, List.map_cons]
    refine Alt.cons (Nat.add_le_add_right hse 1) ?_ ih
    intro s' hs'
    rcases List.mem_map.mp hs' with ⟨a, ha, rfl⟩
    exact Nat.add_lt_add_right (hlt a ha) 1

lemma alt_both (x : List Bool) : ∀ p : Bool,
    ((p && x.headD false) = false → Alt (risesFrom p x) (fallsList x)) ∧
    ((p && x.headD false) = true → ∃ e E', fallsList x = e :: E' ∧
      Alt (risesFrom p x) E' ∧ ∀ s ∈ risesFrom p x, e < s) := by
  induction x with
  | nil =>
    intro p
    exact ⟨fun _ => Alt.nil, fun h => by simp at h⟩
  | cons c rest ih =>
    intro p
    cases c with
    | false =>
      refine ⟨fun _ => ?_, fun h => by simp at h⟩
      cases rest with
      | nil =>
        have hS : risesFrom p [false] = [] := by simp [risesFrom]
        have hE : fallsList [false] = [] := by simp [fallsList]
        rw [hS, hE]
        exact Alt.nil
      | cons d rest' =>
        have hS : risesFrom p (false :: d :: rest')
            = (risesFrom false (d :: rest')).map (· + 1) := by simp [risesFrom]
        have hE : fallsList (false :: d :: rest')
            = (fallsList (d :: rest')).map (· + 1) := by simp [fallsList]
        rw [hS, hE]
        exact ((ih false).1 (by simp)).map_add_one
    | true =>
      cases p with
      | true =>
        refine ⟨fun h => by simp at h, fun _ => ?_⟩
        cases rest with
        | nil =>
          have hS : risesFrom true [true] = [] := by simp [risesFrom]
          have hE : fallsList [true] = [0] := by simp [fallsList]
          rw [hS, hE]
          exact ⟨0, [], rfl, Alt.nil, by intro s hs; cases hs⟩
        | cons d rest' =>
          have hS : risesFrom true (true :: d :: rest')
              = (risesFrom true (d :: rest')).map (· + 1) := by simp [risesFrom]
          cases d with
          | true =>
            rcases (ih true).2 (by simp) with ⟨e₀, E₀, hE', hAlt, hbd⟩
            have hE : fallsList (true :: true :: rest')
                = (fallsList (true :: rest')).map (· + 1) := by simp [fallsList]
            refine ⟨e₀ + 1, E₀.map (· + 1), ?_, ?_, ?_⟩
            · rw [hE, hE']; rfl
            · rw [hS]; exact hAlt.map_add_one
            · rw [hS]
              intro s hs
              rcases List.mem_map.mp hs with ⟨a, ha, rfl⟩
              exact Nat.add_lt_add_right (hbd a ha) 1
          | false =>
            have hAlt := (ih true).1 (by simp)
            have hE : fallsList (true :: false :: rest')
                = 0 :: (fallsList (false :: rest')).map (· + 1) := by simp [fallsList]
            refine ⟨0, (fallsList (false :: rest')).map (· + 1), hE, ?_, ?_⟩
            · rw [hS]; exact hAlt.map_add_one
            · rw [hS]
              intro s hs
              rcases List.mem_map.mp hs with ⟨a, ha, rfl⟩
              exact Nat.succ_pos a
      | false =>
        refine ⟨fun _ => ?_, fun h => by simp at h⟩
        cases rest with
        | nil =>
          have hS : risesFrom false [true] = [0] := by simp [risesFrom]
          have hE : fallsList [true] = [0] := by simp [fallsList]
          rw [hS, hE]
          exact Alt.cons le_rfl (by intro s hs; cases hs) Alt.nil
        | cons d rest' =>
          have hS : risesFrom false (true :: d :: rest')
              = 0 :: (risesFrom true (d :: rest')).map (· + 1) := by simp [risesFrom]
          cases d with
          | true =>
            rcases (ih true).2 (by simp) with ⟨e₀, E₀, hE', hAlt, hbd⟩
            have hE : fallsList (true :: true :: rest')
                = (fallsList (true :: rest')).map (· + 1) := by simp [fallsList]
            rw [hS, hE, hE', List.map_cons]
            refine Alt.cons (Nat.zero_le _) ?_ hAlt.map_add_one
            intro s' hs'
            rcases List.mem_map.mp hs' with ⟨a, ha, rfl⟩
            exact Nat.add_lt_add_right (hbd a ha) 1
          | false =>
            have hAlt := (ih true).1 (by simp)
            have hE : fallsList (true :: false :: rest')
                = 0 :: (fallsList (false :: rest')).map (· + 1) := by simp [fallsList]
            rw [hS, hE]
            refine Alt.cons le_rfl ?_ hAlt.map_add_one
            intro s' hs'
            rcases List.mem_map.mp hs' with ⟨a, ha, rfl⟩
            exact Nat.succ_pos a

/-- The rising and falling edge positions of any boolean signal interleave. -/
lemma alt_rises_falls (x : List Bool) : Alt (risesFrom false x) (fallsList x) :=
  (alt_both x false).1 (by simp)

lemma Alt.length_eq {S E : List ℕ} (h : Alt S E) : S.length = E.length := by
  induction h with
  | nil => rfl
  | cons _ _ _ ih => simpa using ih

lemma Alt.getD_le {S E : List ℕ} (h : Alt S E) :
    ∀ i, i < S.length → S.getD i 0 ≤ E.getD i 0 := by
  induction h with
  | nil => intro i hi; simp at hi
  | cons hse hlt _ ih =>
    intro i hi
    cases i with
    | zero => simpa using hse
    | succ j =>
      have := ih j (by simpa using hi)
      simpa using this

lemma Alt.getD_lt_next {S E : List ℕ} (h : Alt S E) :
    ∀ i, i + 1 < S.length → E.getD i 0 < S.getD (i + 1) 0 := by
  induction h with
  | nil => intro i hi; simp at hi
  | cons hse hlt hA ih =>
    rename_i s e S' E'
    intro i hi
    cases i with
    | zero =>
      have hS' : 0 < S'.length := by simpa using hi
      have hmem : S'.getD 0 0 ∈ S' := by
        rw [List.getD_eq_getElem _ _ hS']
        exact List.getElem_mem hS'
      simpa using hlt _ hmem
    | succ j =>
      have hj : j + 1 < S'.length := by
        simp only [List.length_cons] at hi
        omega
      have := ih j hj
      simpa using this

/-! ### Properties of `np_max` / `np_argmax` -/

lemma np_argmax_lt_length : ∀ l : List ℚ, l ≠ [] → np_argmax l < l.length := by
  intro l
  induction l with
  | nil => intro h; exact absurd rfl h
  | cons a tl ih =>
    intro _
    cases tl with
    | nil => simp [np_argmax]
    | cons b rest =>
      rw [np_argmax]
      split
      · have := ih (by simp)
        simp only [List.length_cons] at *
        omega
      · simp

lemma getD_np_argmax : ∀ l : List ℚ, l ≠ [] → l.getD (np_argmax l) 0 = np_max l := by
  intro l
  induction l with
  | nil => intro h; exact absurd rfl h
  | cons a tl ih =>
    intro _
    cases tl with
    | nil => rfl
    | cons b rest =>
      rw [np_argmax, np_max]
      split
      · rename_i hlt
        rw [List.getD_cons_succ, ih (by simp), max_eq_right (le_of_lt hlt)]
      · rename_i hnlt
        rw [List.getD_cons_zero, max_eq_left (not_lt.mp hnlt)]

lemma le_np_max : ∀ l : List ℚ, ∀ v ∈ l, v ≤ np_max l := by
  intro l
  induction l with
  | nil => intro v hv; cases hv
  | cons a tl ih =>
    intro v hv
    cases tl with
    | nil =>
      rw [List.mem_singleton] at hv
      simp [np_max, hv]
    | cons b rest =>
      rw [np_max]
      rcases List.mem_cons.mp hv with rfl | hv'
      · exact le_max_left _ _
      · exact le_trans (ih v hv') (le_max_right _ _)

lemma getD_lt_of_lt_np_argmax : ∀ l : List ℚ, ∀ j < np_argmax l, l.getD j 0 < np_max l := by
  intro l
  induction l with
  | nil => intro j hj; simp [np_argmax] at hj
  | cons a tl ih =>
    intro j hj
    cases tl with
    | nil => simp [np_argmax] at hj
    | cons b rest =>
      rw [np_argmax] at hj
      rw [np_max]
      split at hj
      · rename_i hlt
        rw [max_eq_right (le_of_lt hlt)]
        cases j with
        | zero => simpa using hlt
        | succ i => rw [List.getD_cons_succ]; exact ih i (by omega)
      · omega

/-! ### `getD` access helpers -/

lemma getD_range {n i : ℕ} (h : i < n) : (List.range n).getD i 0 = i := by
  rw [List.getD_eq_getElem _ _ (by simpa using h)]
  simp

lemma getD_map_nat {l : List ℕ} {f : ℕ → ℕ} {i : ℕ} (h : i < l.length) :
    (l.map f).getD i 0 = f (l.getD i 0) := by
  rw [List.getD_eq_getElem _ _ (by simpa using h), List.getD_eq_getElem _ _ h]
  simp

lemma getD_zip_map {l₁ l₂ : List ℕ} {g : ℕ × ℕ → ℕ} {i : ℕ}
    (h1 : i < l₁.length) (h2 : i < l₂.length) :
    ((l₁.zip l₂).map g).getD i 0 = g (l₁.getD i 0, l₂.getD i 0) := by
  have hz : i < (l₁.zip l₂).length := by rw [List.length_zip]; omega
  rw [List.getD_eq_getElem _ _ (by simpa using hz), List.getD_eq_getElem _ _ h1,
    List.getD_eq_getElem _ _ h2, List.getElem_map, List.getElem_zip]

lemma zip5_length_eq (as bs cs ds es : List ℕ)
    (h2 : bs.length = as.length) (h3 : cs.length = as.length)
    (h4 : ds.length = as.length) (h5 : es.length = as.length) :
    (zip5 as bs cs ds es).length = as.length := by
  induction as generalizing bs cs ds es with
  | nil => rw [List.length_eq_zero.mp h2]; rfl
  | cons a as' ih =>
    rcases bs with _ | ⟨b, bs'⟩; · simp at h2
    rcases cs with _ | ⟨c, cs'⟩; · simp at h3
    rcases ds with _ | ⟨d, ds'⟩; · simp at h4
    rcases es with _ | ⟨e, es'⟩; · simp at h5
    simp only [List.length_cons] at *
    rw [zip5]
    simp only [List.length_cons]
    rw [ih bs' cs' ds' es' (by omega) (by omega) (by omega) (by omega)]

lemma zip5_getD (as bs cs ds es : List ℕ) (i : ℕ)
    (h1 : i < as.length) (h2 : i < bs.length) (h3 : i < cs.length)
    (h4 : i < ds.length) (h5 : i < es.length) :
    (zip5 as bs cs ds es).getD i (0, 0, 0, 0, 0)
      = (as.getD i 0, bs.getD i 0, cs.getD i 0, ds.getD i 0, es.getD i 0) := by
  induction as generalizing bs cs ds es i with
  | nil => simp at h1
  | cons a as' ih =>
    rcases bs with _ | ⟨b, bs'⟩; · simp at h2
    rcases cs with _ | ⟨c, cs'⟩; · simp at h3
    rcases ds with _ | ⟨d, ds'⟩; · simp at h4
    rcases es with _ | ⟨e, es'⟩; · simp at h5
    rw [zip5]
    cases i with
    | zero => rfl
    | succ j =>
      simp only [List.length_cons] at h1 h2 h3 h4 h5
      simp only [List.getD_cons_succ]
      exact ih bs' cs' ds' es' j (by omega) (by omega) (by omega) (by omega) (by omega)

/-- `segment_basic` with the default index vector returns the raw rising
positions and the raw falling positions shifted by one (exclusive ends). -/
lemma segment_basic_none (b : List Bool) :
    segment_basic b none = (risesFrom false b, (fallsList b).map (· + 1)) := by
  unfold segment_basic
  simp only [Option.getD_none, Prod.mk.injEq]
  constructor
  · rw [risingIdx_eq]
    have h : ∀ a ∈ risesFrom false b, (List.range b.length).getD a 0 = a :=
      fun a ha => getD_range (risesFrom_lt false b a ha)
    rw [List.map_congr_left h, List.map_id']
  · rw [fallingIdx_eq]
    apply List.map_congr_left
    intro a ha
    rw [getD_range (fallsList_lt b a ha)]

/-! ### Characterization of the threshold-segment table -/

/-- Raw onsets of `segment_by_threshold`: rising positions of `x > th`. -/
def runS (x : List ℚ) (th : ℚ) : List ℕ :=
  risesFrom false (x.map fun v => decide (v > th))

/-- Raw falling positions of `x > th` (offsets are these plus one). -/
def runE (x : List ℚ) (th : ℚ) : List ℕ :=
  fallsList (x.map fun v => decide (v > th))

lemma runS_length_eq_runE (x : List ℚ) (th : ℚ) :
    (runS x th).length = (runE x th).length :=
  (alt_rises_falls _).length_eq

lemma sbt_rows_length (x : List ℚ) (th : ℚ) (t : Option (List ℕ)) :
    (segment_by_threshold x th t).1.length = (runS x th).length := by
  have hk := runS_length_eq_runE x th
  simp only [segment_by_threshold, segment_basic_none]
  split
  · rename_i h
    rw [show runS x th = [] from h]
    rfl
  · rename_i h
    have hpos : 0 < (runS x th).length := List.length_pos.mpr h
    have hk' := hk
    simp only [runS, runE] at hk' hpos
    rw [zip5_length_eq] <;>
      simp only [List.length_map, List.length_cons, List.length_dropLast,
        List.length_zip, List.length_append, List.length_tail,
        List.length_singleton, List.length_nil, runS, runE] <;> omega

lemma getD_dropLast {l : List ℕ} {i : ℕ} (h : i + 1 < l.length) :
    l.dropLast.getD i 0 = l.getD i 0 := by
  have h1 : i < l.dropLast.length := by rw [List.length_dropLast]; omega
  rw [List.getD_eq_getElem _ _ h1, List.getD_eq_getElem _ _ (by omega),
    List.getElem_dropLast]

lemma getD_append_left {l₁ l₂ : List ℕ} {i : ℕ} (h : i < l₁.length) :
    (l₁ ++ l₂).getD i 0 = l₁.getD i 0 := by
  rw [List.getD_eq_getElem _ _ (by rw [List.length_append]; omega),
    List.getD_eq_getElem _ _ h, List.getElem_append_left h]

lemma getD_tail {l : List ℕ} {i : ℕ} (h : i + 1 < l.length) :
    l.tail.getD i 0 = l.getD (i + 1) 0 := by
  have h1 : i < l.tail.length := by rw [List.length_tail]; omega
  rw [List.getD_eq_getElem _ _ h1, List.getD_eq_getElem _ _ (by omega),
    List.getElem_tail]

lemma sbt_peaks_length (x : List ℚ) (th : ℚ) (t : Option (List ℕ)) :
    (segment_by_threshold x th t).2.length = (runS x th).length := by
  have hk := runS_length_eq_runE x th
  simp only [segment_by_threshold, segment_basic_none]
  split
  · rename_i h
    rw [show runS x th = [] from h]
    rfl
  · simp only [List.length_map, List.length_zip, runS, runE] at *
    omega

lemma sbt_peaks_getD (x : List ℚ) (th : ℚ) (t : Option (List ℕ)) (i : ℕ)
    (hi : i < (runS x th).length) :
    (segment_by_threshold x th t).2.getD i 0
      = np_max (pySlice x ((runS x th).getD i 0) ((runE x th).getD i 0 + 1)) := by
  have hk := runS_length_eq_runE x th
  have hne : runS x th ≠ [] := List.length_pos.mp (lt_of_le_of_lt (Nat.zero_le i) hi)
  have hiE : i < (runE x th).length := by omega
  simp only [runS, runE] at hi hiE hk hne ⊢
  simp only [segment_by_threshold, segment_basic_none]
  rw [if_neg hne]
  have hz : i < ((risesFrom false (x.map fun v => decide (v > th))).zip
      ((fallsList (x.map fun v => decide (v > th))).map (· + 1))).length := by
    rw [List.length_zip, List.length_map]
    omega
  rw [List.getD_eq_getElem _ _ (by rw [List.length_map]; exact hz), List.getElem_map,
    List.getElem_zip]
  rw [List.getD_eq_getElem _ _ hi, List.getD_eq_getElem _ _ hiE]
  congr 1
  rw [List.getElem_map]

lemma sbt_row (x : List ℚ) (th : ℚ) (t : Option (List ℕ)) (i : ℕ)
    (hi : i < (runS x th).length) :
    (segment_by_threshold x th t).1.getD i (0, 0, 0, 0, 0)
      = ((t.getD (List.range (x.length + 1))).getD
           (if i = 0 then 0 else (runE x th).getD (i - 1) 0 + 1) 0,
         (t.getD (List.range (x.length + 1))).getD ((runS x th).getD i 0) 0,
         (t.getD (List.range (x.length + 1))).getD
           ((runS x th).getD i 0
             + np_argmax (pySlice x ((runS x th).getD i 0) ((runE x th).getD i 0 + 1))) 0,
         (t.getD (List.range (x.length + 1))).getD ((runE x th).getD i 0 + 1) 0,
         (t.getD (List.range (x.length + 1))).getD
           (if i + 1 < (runS x th).length then (runS x th).getD (i + 1) 0 else x.length) 0) := by
  have hk := runS_length_eq_runE x th
  have hne : runS x th ≠ [] := List.length_pos.mp (lt_of_le_of_lt (Nat.zero_le i) hi)
  have hiE : i < (runE x th).length := by omega
  simp only [runS, runE] at hi hiE hk hne ⊢
  simp only [segment_by_threshold, segment_basic_none]
  rw [if_neg hne]
  rw [zip5_getD] <;>
    [skip;
     (simp only [List.length_map, List.length_cons, List.length_dropLast]; omega);
     (simp only [List.length_map]; omega);
     (simp only [List.length_map, List.length_zip]; omega);
     (simp only [List.length_map]; omega);
     (simp only [List.length_map, List.length_append, List.length_tail,
        List.length_cons, List.length_nil]; omega)]
  have hmap : ∀ (l : List ℕ) (h : i < l.length),
      (l.map fun j => (t.getD (List.range (x.length + 1))).getD j 0).getD i 0
        = (t.getD (List.range (x.length + 1))).getD (l.getD i 0) 0 :=
    fun l h => getD_map_nat h
  rw [hmap _ (by simp only [List.length_cons, List.length_map, List.length_dropLast]; omega),
    hmap _ hi,
    hmap _ (by simp only [List.length_map, List.length_zip]; omega),
    hmap _ (by simp only [List.length_map]; omega),
    hmap _ (by simp only [List.length_append, List.length_tail, List.length_cons,
      List.length_nil]; omega)]
  congr 1
  -- start field
  · congr 1
    cases i with
    | zero => rfl
    | succ j =>
      rw [List.getD_cons_succ, getD_dropLast (by rw [List.length_map]; omega),
        getD_map_nat (by omega)]
      simp
  congr 1
  congr 1
  -- peak field
  · congr 1
    rw [getD_zip_map hi (by rw [List.length_map]; omega), getD_map_nat hiE]
  congr 1
  -- offset field
  · congr 1
    exact getD_map_nat hiE
  -- end field
  · congr 1
    by_cases hlast : i + 1 < (risesFrom false (x.map fun v => decide (v > th))).length
    · rw [if_pos hlast, getD_append_left (by rw [List.length_tail]; omega),
        getD_tail (by omega)]
    · rw [if_neg hlast]
      have hlen : (risesFrom false (x.map fun v => decide (v > th))).tail.length = i := by
        rw [List.length_tail]
        omega
      rw [List.getD_eq_getElem _ _ (by
          rw [List.length_append, List.length_tail, List.length_cons, List.length_nil]
          omega),
        List.getElem_append_right (by omega)]
      simp [hlen]

lemma runS_getD_lt (x : List ℚ) (th : ℚ) {i : ℕ} (hi : i < (runS x th).length) :
    (runS x th).getD i 0 < x.length := by
  have hmem : (runS x th).getD i 0 ∈ runS x th := by
    rw [List.getD_eq_getElem _ _ hi]
    exact List.getElem_mem hi
  have := risesFrom_lt false (x.map fun v => decide (v > th)) _ hmem
  simpa using this

lemma runE_getD_lt (x : List ℚ) (th : ℚ) {i : ℕ} (hi : i < (runE x th).length) :
    (runE x th).getD i 0 < x.length := by
  have hmem : (runE x th).getD i 0 ∈ runE x th := by
    rw [List.getD_eq_getElem _ _ hi]
    exact List.getElem_mem hi
  have := fallsList_lt (x.map fun v => decide (v > th)) _ hmem
  simpa using this

lemma runS_le_runE (x : List ℚ) (th : ℚ) {i : ℕ} (hi : i < (runS x th).length) :
    (runS x th).getD i 0 ≤ (runE x th).getD i 0 :=
  (alt_rises_falls _).getD_le i hi

lemma runE_lt_runS_next (x : List ℚ) (th : ℚ) {i : ℕ}
    (hi : i + 1 < (runS x th).length) :
    (runE x th).getD i 0 < (runS x th).getD (i + 1) 0 :=
  (alt_rises_falls _).getD_lt_next i hi

lemma pySlice_length (x : List ℚ) (a b : ℕ) :
    (pySlice x a b).length = min (b - a) (x.length - a) := by
  simp [pySlice]

lemma pySlice_getD (x : List ℚ) (a b j : ℕ) (h : j < (pySlice x a b).length) :
    (pySlice x a b).getD j 0 = x.getD (a + j) 0 := by
  rw [pySlice_length] at h
  have h2 : a + j < x.length := by omega
  have h1 : j < ((x.drop a).take (b - a)).length := by
    rw [List.length_take, List.length_drop]
    omega
  rw [pySlice, List.getD_eq_getElem _ _ h1, List.getD_eq_getElem _ _ h2,
    List.getElem_take, List.getElem_drop]

lemma risesFrom_of_all_false (p : Bool) (b : List Bool)
    (h : ∀ c ∈ b, c = false) : risesFrom p b = [] := by
  induction b generalizing p with
  | nil => rfl
  | cons c rest ih =>
    have hc : c = false := h c (List.mem_cons_self c _)
    subst hc
    rw [risesFrom, ih false fun c hc => h c (List.mem_cons_of_mem _ hc)]
    rfl

lemma fallsList_of_all_false (b : List Bool)
    (h : ∀ c ∈ b, c = false) : fallsList b = [] := by
  induction b with
  | nil => rfl
  | cons c rest ih =>
    have hc : c = false := h c (List.mem_cons_self c _)
    subst hc
    cases rest with
    | nil => rfl
    | cons d rest' =>
      rw [fallsList, ih fun c hc => h c (List.mem_cons_of_mem _ hc)]
      rfl

/-- `sbt_row` specialised to the default index vector, where the mapping
through `np.arange(len(x)+1)` is the identity. -/
lemma sbt_row_none (x : List ℚ) (th : ℚ) (i : ℕ) (hi : i < (runS x th).length) :
    (segment_by_threshold x th none).1.getD i (0, 0, 0, 0, 0)
      = (if i = 0 then 0 else (runE x th).getD (i - 1) 0 + 1,
         (runS x th).getD i 0,
         (runS x th).getD i 0
           + np_argmax (pySlice x ((runS x th).getD i 0) ((runE x th).getD i 0 + 1)),
         (runE x th).getD i 0 + 1,
         if i + 1 < (runS x th).length then (runS x th).getD (i + 1) 0 else x.length) := by
  have hk := runS_length_eq_runE x th
  have hiE : i < (runE x th).length := by omega
  have hS_lt := runS_getD_lt x th hi
  have hE_lt := runE_getD_lt x th hiE
  have hSE := runS_le_runE x th hi
  have hE_prev : (runE x th).getD (i - 1) 0 < x.length := runE_getD_lt x th (by omega)
  have hslice : (pySlice x ((runS x th).getD i 0) ((runE x th).getD i 0 + 1)).length
      = (runE x th).getD i 0 + 1 - (runS x th).getD i 0 := by
    rw [pySlice_length]
    omega
  have hargmax : np_argmax (pySlice x ((runS x th).getD i 0) ((runE x th).getD i 0 + 1))
      < (runE x th).getD i 0 + 1 - (runS x th).getD i 0 := by
    rw [← hslice]
    apply np_argmax_lt_length
    apply List.length_pos.mp
    rw [hslice]
    omega
  rw [sbt_row x th none i hi, Option.getD_none]
  simp only [Prod.mk.injEq]
  refine ⟨?_, ?_, ?_, ?_, ?_⟩
  · apply getD_range
    split <;> omega
  · exact getD_range (by omega)
  · exact getD_range (by omega)
  · exact getD_range (by omega)
  · apply getD_range
    split
    · rename_i h1
      have := runS_getD_lt x th h1
      omega
    · omega

/-- **C2, counterexample.**  For `x = [5, 0, 5]` with `threshold = 2` the
table rows are `(0,0,0,1,2)` and `(1,2,2,3,3)`: row 0 has `end = 2` but row 1
has `start = 1`, so the claimed `end[i] ≤ start[i+1]` fails. -/
theorem c2_counterexample :
    ¬ (∀ i, i + 1 < (segment_by_threshold [5, 0, 5] 2 none).1.length →
        ((segment_by_threshold [5, 0, 5] 2 none).1.getD i (0, 0, 0, 0, 0)).2.2.2.2
          ≤ ((segment_by_threshold [5, 0, 5] 2 none).1.getD (i + 1) (0, 0, 0, 0, 0)).1) := by
  intro h
  exact absurd (h 0 (by decide)) (by decide)

/-- **C2 (amended).**  With the default `t`, every row of the segment table
satisfies `start ≤ onset ≤ peak < offset ≤ end`, and consecutive rows satisfy
`start[i+1] ≤ end[i]` (the code sets `start[i+1] = offset[i]` and
`end[i] = onset[i+1]`, so the spec's `end[i] ≤ start[i+1]` is reversed). -/
theorem c2_segment_table_invariant (x : List ℚ) (th : ℚ) :
    (∀ i, i < (segment_by_threshold x th none).1.length →
      ((segment_by_threshold x th none).1.getD i (0, 0, 0, 0, 0)).1
          ≤ ((segment_by_threshold x th none).1.getD i (0, 0, 0, 0, 0)).2.1 ∧
      ((segment_by_threshold x th none).1.getD i (0, 0, 0, 0, 0)).2.1
          ≤ ((segment_by_threshold x th none).1.getD i (0, 0, 0, 0, 0)).2.2.1 ∧
      ((segment_by_threshold x th none).1.getD i (0, 0, 0, 0, 0)).2.2.1
          < ((segment_by_threshold x th none).1.getD i (0, 0, 0, 0, 0)).2.2.2.1 ∧
      ((segment_by_threshold x th none).1.getD i (0, 0, 0, 0, 0)).2.2.2.1
          ≤ ((segment_by_threshold x th none).1.getD i (0, 0, 0, 0, 0)).2.2.2.2) ∧
    (∀ i, i + 1 < (segment_by_threshold x th none).1.length →
      ((segment_by_threshold x th none).1.getD (i + 1) (0, 0, 0, 0, 0)).1
        ≤ ((segment_by_threshold x th none).1.getD i (0, 0, 0, 0, 0)).2.2.2.2) := by
  have hlen := sbt_rows_length x th none
  have hk := runS_length_eq_runE x th
  constructor
  · intro i hi
    rw [hlen] at hi
    have hiE : i < (runE x th).length := by omega
    have hSE := runS_le_runE x th hi
    have hslice : (pySlice x ((runS x th).getD i 0) ((runE x th).getD i 0 + 1)).length
        = (runE x th).getD i 0 + 1 - (runS x th).getD i 0 := by
      rw [pySlice_length]
      have := runS_getD_lt x th hi
      have := runE_getD_lt x th hiE
      omega
    have hargmax : np_argmax (pySlice x ((runS x th).getD i 0) ((runE x th).getD i 0 + 1))
        < (runE x th).getD i 0 + 1 - (runS x th).getD i 0 := by
      rw [← hslice]
      apply np_argmax_lt_length
      apply List.length_pos.mp
      rw [hslice]
      omega
    rw [sbt_row_none x th i hi]
    dsimp only
    refine ⟨?_, ?_, ?_, ?_⟩
    · show (if i = 0 then 0 else (runE x th).getD (i - 1) 0 + 1) ≤ (runS x th).getD i 0
      cases i with
      | zero => exact Nat.zero_le _
      | succ j =>
        rw [if_neg (Nat.succ_ne_zero j)]
        simp only [Nat.add_sub_cancel]
        have := runE_lt_runS_next x th hi
        omega
    · exact Nat.le_add_right _ _
    · show _ + np_argmax _ < (runE x th).getD i 0 + 1
      omega
    · show (runE x th).getD i 0 + 1 ≤ _
      split
      · rename_i h1
        have := runE_lt_runS_next x th h1
        omega
      · have := runE_getD_lt x th hiE
        omega
  · intro i hi
    rw [hlen] at hi
    have hi0 : i < (runS x th).length := by omega
    rw [sbt_row_none x th (i + 1) hi, sbt_row_none x th i hi0]
    dsimp only
    show (if i + 1 = 0 then 0 else (runE x th).getD (i + 1 - 1) 0 + 1)
        ≤ (if i + 1 < (runS x th).length then (runS x th).getD (i + 1) 0 else x.length)
    rw [if_neg (Nat.succ_ne_zero i), if_pos hi]
    simp only [Nat.add_sub_cancel]
    have := runE_lt_runS_next x th hi
    omega

/-- **C2 witness**: the amended invariant evaluated on the concrete input
`x = [5, 0, 5]`, `threshold = 2`: row 1 starts no later than row 0 ends. -/
theorem c2_witness :
    ((segment_by_threshold [5, 0, 5] 2 none).1.getD 1 (0, 0, 0, 0, 0)).1
      ≤ ((segment_by_threshold [5, 0, 5] 2 none).1.getD 0 (0, 0, 0, 0, 0)).2.2.2.2 :=
  (c2_segment_table_invariant [5, 0, 5] 2).2 0 (by decide)

/-- **C1 (code bug).**  The spec and the function's own docstring demand
segmentation of `x >= threshold` (samples equal to the threshold inside an
active interval), but the code thresholds with strict `x > threshold`.  At
`x = [0, 1, 0]`, `threshold = 1` the sample at index 1 equals the threshold,
so one active interval `[1, 2)` is required, yet the code returns an empty
table; running the run segmenter on the documented `x >= threshold` mask
produces exactly that interval. -/
theorem c1_threshold_strictness_bug :
    segment_by_threshold [0, 1, 0] 1 none = ([], []) ∧
    segment_basic (([0, 1, 0] : List ℚ).map fun v => decide (v ≥ 1)) none
      = ([1], [2]) := by
  exact ⟨by decide, by decide⟩

/-- **C8.**  A signal whose values all stay below the threshold yields the
zero-row segment table and the empty peak-value sequence, and `segment_basic`
on an all-false boolean input of any length yields empty starts and ends;
neither function has an error path. -/
theorem c8_empty_results (x : List ℚ) (th : ℚ) (t1 : Option (List ℕ))
    (n : ℕ) (t2 : Option (List ℕ)) (h : ∀ v ∈ x, v < th) :
    segment_by_threshold x th t1 = ([], []) ∧
    segment_basic (List.replicate n false) t2 = ([], []) := by
  constructor
  · have hfalse : ∀ c ∈ x.map fun v => decide (v > th), c = false := by
      intro c hc
      rcases List.mem_map.mp hc with ⟨v, hv, rfl⟩
      exact decide_eq_false (not_lt.mpr (le_of_lt (h v hv)))
    have hS : risesFrom false (x.map fun v => decide (v > th)) = [] :=
      risesFrom_of_all_false _ _ hfalse
    simp only [segment_by_threshold, segment_basic_none]
    rw [if_pos hS]
  · have hfalse : ∀ c ∈ List.replicate n false, c = false :=
      fun c hc => List.eq_of_mem_replicate hc
    unfold segment_basic
    rw [risingIdx_eq, fallingIdx_eq, risesFrom_of_all_false _ _ hfalse,
      fallsList_of_all_false _ hfalse]
    rfl

/-- **C8 witness**: concrete instance, `x = [1, 2]` below threshold 3 and an
all-false boolean signal of length 2. -/
theorem c8_witness :
    segment_by_threshold [1, 2] 3 none = ([], []) ∧
    segment_basic (List.replicate 2 false) none = ([], []) :=
  c8_empty_results [1, 2] 3 none 2 none (by decide)

/-- **C3, counterexample.**  For `x = [True]`, `t = [10, 20]` the single run is
`[0, 1)`; the claim predicts `ends = [t[1]] = [20]`, but the code computes
`t[0] + 1 = 11`: the exclusive-end `+1` is applied after the mapping through
`t`, not before. -/
theorem c3_counterexample :
    (segment_basic [true] (some [10, 20])).2 ≠ [([10, 20] : List ℕ).getD 1 0] ∧
    (segment_basic [true] (some [10, 20])).2 = [11] := by
  exact ⟨by decide, by decide⟩

lemma fallsList_spec (x : List Bool) :
    ∀ p ∈ fallsList x, x.getD p false = true ∧ x.getD (p + 1) false = false := by
  induction x with
  | nil => intro p hp; cases hp
  | cons c rest ih =>
    cases rest with
    | nil =>
      intro p hp
      cases c with
      | false => rw [fallsList] at hp; simp at hp
      | true =>
        rw [fallsList, if_pos rfl] at hp
        rw [List.mem_singleton.mp hp]
        exact ⟨rfl, rfl⟩
    | cons d rest' =>
      intro p hp
      rw [fallsList, List.mem_append] at hp
      rcases hp with hp | hp
      · have hp0 : p = 0 ∧ (c && !d) = true := by
          by_cases hcd : (c && !d) = true
          · rw [if_pos hcd] at hp
            exact ⟨List.mem_singleton.mp hp, hcd⟩
          · rw [if_neg hcd] at hp
            cases hp
        obtain ⟨rfl, hcd⟩ := hp0
        obtain ⟨hc, hd⟩ : c = true ∧ d = false := by
          cases c <;> cases d <;> simp_all
        refine ⟨by simpa using hc, ?_⟩
        rw [List.getD_cons_succ, List.getD_cons_zero]
        exact hd
      · rcases List.mem_map.mp hp with ⟨a, ha, rfl⟩
        refine ⟨?_, ?_⟩
        · show (c :: d :: rest').getD (a + 1) false = true
          rw [List.getD_cons_succ]
          exact (ih a ha).1
        · show (c :: d :: rest').getD (a + 1 + 1) false = false
          rw [List.getD_cons_succ]
          exact (ih a ha).2

/-- **C3 (amended).**  With a provided index vector `t` of length ≥ `len x`,
each returned end equals `t` evaluated at the falling-edge position `p` (the
last true sample of the run) plus one — the mapping through `t` happens before
the `+1`, so it agrees with `t[p+1]` only for consecutive index vectors. -/
theorem c3_end_after_mapping (x : List Bool) (tl : List ℕ)
    (h : x.length ≤ tl.length) :
    ∀ j, j < (segment_basic x (some tl)).2.length →
      ∃ p, p < x.length ∧ x.getD p false = true ∧ x.getD (p + 1) false = false ∧
        (segment_basic x (some tl)).2.getD j 0 = tl.getD p 0 + 1 := by
  intro j hj
  have hlen : (segment_basic x (some tl)).2.length = (fallsList x).length := by
    simp [segment_basic, fallingIdx_eq]
  rw [hlen] at hj
  have hmem : (fallsList x).getD j 0 ∈ fallsList x := by
    rw [List.getD_eq_getElem _ _ hj]
    exact List.getElem_mem hj
  refine ⟨(fallsList x).getD j 0, fallsList_lt x _ hmem,
    (fallsList_spec x _ hmem).1, (fallsList_spec x _ hmem).2, ?_⟩
  show ((fallingIdx x).map fun i => ((some tl).getD (List.range x.length)).getD i 0 + 1).getD j 0 = _
  rw [Option.getD_some, fallingIdx_eq]
  exact getD_map_nat (by exact hj)

/-- **C3 witness**: `x = [false, true]`, `t = [10, 20]`: the single end is
`t[1] + 1 = 21`, at the falling-edge position 1. -/
theorem c3_witness :
    ∃ p, p < 2 ∧ ([false, true] : List Bool).getD p false = true ∧
      ([false, true] : List Bool).getD (p + 1) false = false ∧
      (segment_basic [false, true] (some [10, 20])).2.getD 0 0
        = ([10, 20] : List ℕ).getD p 0 + 1 :=
  c3_end_after_mapping [false, true] [10, 20] (by decide) 0 (by decide)

/-- **C7.**  For every returned segment, the peak is at a position `p` inside
the raw active window `[onset, offset)` carrying the maximum of `x` there,
every strictly earlier in-window sample being strictly smaller (ties broken by
first occurrence); the row stores `t[p]` (position mapped through `t`) while
the peak-value list stores `x[p]` itself, unmapped. -/
theorem c7_peak_field (x : List ℚ) (th : ℚ) (tl : List ℕ)
    (h : x.length + 1 ≤ tl.length) :
    ∀ i, i < (segment_by_threshold x th (some tl)).1.length →
      ∃ p, (runS x th).getD i 0 ≤ p ∧ p < (runE x th).getD i 0 + 1 ∧
        (∀ j, (runS x th).getD i 0 ≤ j → j < (runE x th).getD i 0 + 1 →
          x.getD j 0 ≤ x.getD p 0) ∧
        (∀ j, (runS x th).getD i 0 ≤ j → j < p → x.getD j 0 < x.getD p 0) ∧
        ((segment_by_threshold x th (some tl)).1.getD i (0, 0, 0, 0, 0)).2.2.1
          = tl.getD p 0 ∧
        (segment_by_threshold x th (some tl)).2.getD i 0 = x.getD p 0 := by
  intro i hi
  rw [sbt_rows_length] at hi
  have hk := runS_length_eq_runE x th
  have hiE : i < (runE x th).length := by omega
  have hS_lt := runS_getD_lt x th hi
  have hE_lt := runE_getD_lt x th hiE
  have hSE := runS_le_runE x th hi
  set S := (runS x th).getD i 0 with hSdef
  set E := (runE x th).getD i 0 with hEdef
  have hslice : (pySlice x S (E + 1)).length = E + 1 - S := by
    rw [pySlice_length]
    omega
  have hne : pySlice x S (E + 1) ≠ [] := by
    apply List.length_pos.mp
    rw [hslice]
    omega
  have hargmax : np_argmax (pySlice x S (E + 1)) < E + 1 - S := by
    rw [← hslice]
    exact np_argmax_lt_length _ hne
  have hpk : x.getD (S + np_argmax (pySlice x S (E + 1))) 0 = np_max (pySlice x S (E + 1)) := by
    rw [← pySlice_getD x S (E + 1) _ (by rw [hslice]; exact hargmax),
      getD_np_argmax _ hne]
  refine ⟨S + np_argmax (pySlice x S (E + 1)), Nat.le_add_right _ _, by omega, ?_, ?_, ?_, ?_⟩
  · intro j hj1 hj2
    rw [hpk]
    have hjs : j - S < (pySlice x S (E + 1)).length := by rw [hslice]; omega
    have : x.getD j 0 = (pySlice x S (E + 1)).getD (j - S) 0 := by
      rw [pySlice_getD x S (E + 1) _ hjs]
      congr 1
      omega
    rw [this]
    apply le_np_max
    rw [List.getD_eq_getElem _ _ hjs]
    exact List.getElem_mem hjs
  · intro j hj1 hj2
    rw [hpk]
    have hjlt : j - S < np_argmax (pySlice x S (E + 1)) := by omega
    have hjs : j - S < (pySlice x S (E + 1)).length := by
      rw [hslice]
      omega
    have : x.getD j 0 = (pySlice x S (E + 1)).getD (j - S) 0 := by
      rw [pySlice_getD x S (E + 1) _ hjs]
      congr 1
      omega
    rw [this]
    exact getD_lt_of_lt_np_argmax _ _ hjlt
  · rw [sbt_row x th (some tl) i hi]
    dsimp only
    rw [Option.getD_some]
  · rw [sbt_peaks_getD x th (some tl) i hi, ← hpk]

/-- **C7 witness**: `x = [0, 5, 3, 8]`, `threshold = 2`, `t = [10, 11, 12, 13, 14]`:
the run is `[1, 4)`, the peak sits at raw position 3 (value 8, first maximal),
the row stores `t[3] = 13` and the peak list stores `8`. -/
theorem c7_witness :
    ∃ p, (runS [0, 5, 3, 8] 2).getD 0 0 ≤ p ∧ p < (runE [0, 5, 3, 8] 2).getD 0 0 + 1 ∧
      (∀ j, (runS [0, 5, 3, 8] 2).getD 0 0 ≤ j → j < (runE [0, 5, 3, 8] 2).getD 0 0 + 1 →
        ([0, 5, 3, 8] : List ℚ).getD j 0 ≤ ([0, 5, 3, 8] : List ℚ).getD p 0) ∧
      (∀ j, (runS [0, 5, 3, 8] 2).getD 0 0 ≤ j → j < p →
        ([0, 5, 3, 8] : List ℚ).getD j 0 < ([0, 5, 3, 8] : List ℚ).getD p 0) ∧
      ((segment_by_threshold [0, 5, 3, 8] 2 (some [10, 11, 12, 13, 14])).1.getD 0
          (0, 0, 0, 0, 0)).2.2.1 = ([10, 11, 12, 13, 14] : List ℕ).getD p 0 ∧
      (segment_by_threshold [0, 5, 3, 8] 2 (some [10, 11, 12, 13, 14])).2.getD 0 0
        = ([0, 5, 3, 8] : List ℚ).getD p 0 :=
  c7_peak_field [0, 5, 3, 8] 2 [10, 11, 12, 13, 14] (by decide) 0 (by decide)

/-! ### Lagged cross-covariance claims -/

lemma pooled_zero (xs ys : List (List ℚ)) : pooled xs ys 0 = (xs.flatten, ys.flatten) := by
  rw [pooled, if_pos rfl]

lemma getD_map_poly {α β : Type _} (l : List α) (f : α → β) (i : ℕ) (d : α) (d' : β)
    (h : i < l.length) : (l.map f).getD i d' = f (l.getD i d) := by
  rw [List.getD_eq_getElem _ _ (by simpa using h), List.getD_eq_getElem _ _ h,
    List.getElem_map]

/-- **C6.**  Any zipped pair of mismatched lengths makes the estimator fail
with the shape-mismatch `ValueError` before any covariance computation, with
no partial results. -/
theorem c6_shape_mismatch (cov_with_confidence : CovCI) (np_sqrt : ℚ → ℚ)
    (xs ys : List (List ℚ)) (lag_backward lag_forward : ℕ)
    (confidence : ℚ) (normed : Bool) (i : ℕ)
    (hi : i < xs.length) (hi' : i < ys.length)
    (hne : (xs.getD i []).length ≠ (ys.getD i []).length) :
    xcov_multi_with_confidence cov_with_confidence np_sqrt xs ys
        lag_backward lag_forward confidence normed
      = .error "Arrays within xs and ys must all be of the same size!" := by
  have hz : i < (xs.zip ys).length := by rw [List.length_zip]; omega
  have hcond : ¬ (((xs.zip ys).all fun xy => xy.1.length == xy.2.length) = true) := by
    intro hall
    have hmem : (xs.getD i [], ys.getD i []) ∈ xs.zip ys := by
      have hzd : (xs.zip ys).getD i ([], []) = (xs.getD i [], ys.getD i []) := by
        rw [List.getD_eq_getElem _ _ hz, List.getD_eq_getElem _ _ hi,
          List.getD_eq_getElem _ _ hi']
        exact List.getElem_zip
      rw [← hzd, List.getD_eq_getElem _ _ hz]
      exact List.getElem_mem hz
    have := List.all_eq_true.mp hall _ hmem
    exact hne (by simpa using this)
  unfold xcov_multi_with_confidence
  rw [if_pos hcond]

/-- **C6 witness**: `xs = [[1,2,3]]`, `ys = [[1,2]]` fails with the
shape-mismatch error. -/
theorem c6_witness :
    xcov_multi_with_confidence (fun _ _ _ => (0, 0, 0, 0)) (fun q => q)
        [[1, 2, 3]] [[1, 2]] 0 1 (95/100) false
      = .error "Arrays within xs and ys must all be of the same size!" :=
  c6_shape_mismatch (fun _ _ _ => (0, 0, 0, 0)) (fun q => q)
    [[1, 2, 3]] [[1, 2]] 0 1 (95/100) false 0 (by decide) (by decide) (by decide)

/-- **C9.**  With `lag_backward = 0`, `lag_forward = 1` (and no normalization)
the single returned lag is ℓ = 0 and its covariance (and p-value and bounds)
is the external primitive applied to the unmodified concatenations of `xs`
and `ys`. -/
theorem c9_lag_zero_identity (cov_with_confidence : CovCI) (np_sqrt : ℚ → ℚ)
    (xs ys : List (List ℚ)) (confidence : ℚ)
    (h : ((xs.zip ys).all fun xy => xy.1.length == xy.2.length) = true) :
    xcov_multi_with_confidence cov_with_confidence np_sqrt xs ys 0 1 confidence false
      = .ok ([(cov_with_confidence xs.flatten ys.flatten confidence).1],
             [(cov_with_confidence xs.flatten ys.flatten confidence).2.1],
             [(cov_with_confidence xs.flatten ys.flatten confidence).2.2.1],
             [(cov_with_confidence xs.flatten ys.flatten confidence).2.2.2]) := by
  unfold xcov_multi_with_confidence
  rw [if_neg (by simpa using h)]
  have h0 : ((List.range (0 + 1)).map fun i : ℕ => (i : ℤ) - ((0 : ℕ) : ℤ)) = [0] := by decide
  rw [h0]
  simp only [List.map_cons, List.map_nil, pooled_zero, Bool.false_eq_true, if_false]

/-- **C9 witness**: a concrete primitive reporting its pooled input lengths on
`xs = [[1, 2]]`, `ys = [[3, 4]]`. -/
theorem c9_witness :
    xcov_multi_with_confidence (fun a b _ => ((a.length : ℚ), (b.length : ℚ), 0, 0))
        (fun q => q) [[1, 2]] [[3, 4]] 0 1 (95/100) false
      = .ok ([((([[1, 2]] : List (List ℚ)).flatten.length : ℚ))],
             [((([[3, 4]] : List (List ℚ)).flatten.length : ℚ))], [0], [0]) :=
  c9_lag_zero_identity (fun a b _ => ((a.length : ℚ), (b.length : ℚ), 0, 0))
    (fun q => q) [[1, 2]] [[3, 4]] (95/100) (by decide)

/-- **C4, counterexample.**  For `lag_backward = lag_forward = 0` the returned
sequences are empty (length `0 + 0`), so no lag-0 result is present at index
`lag_backward`, refuting "lag 0 is included" for arbitrary non-negative lag
bounds. -/
theorem c4_counterexample :
    xcov_multi_with_confidence (fun _ _ _ => (1, 1, 1, 1)) (fun q => q)
        [[1, 2]] [[1, 2]] 0 0 (95/100) false
      = .ok ([], [], [], []) ∧
    ∀ covs p_values lbs ubs,
      xcov_multi_with_confidence (fun _ _ _ => (1, 1, 1, 1)) (fun q => q)
          [[1, 2]] [[1, 2]] 0 0 (95/100) false
        = .ok (covs, p_values, lbs, ubs) →
      ¬ 0 < covs.length := by
  refine ⟨rfl, ?_⟩
  intro covs p_values lbs ubs hok
  have h1 : xcov_multi_with_confidence (fun _ _ _ => (1, 1, 1, 1)) (fun q => q)
      [[1, 2]] [[1, 2]] 0 0 (95/100) false = .ok ([], [], [], []) := rfl
  rw [h1] at hok
  have hcovs : covs = ([] : List ℚ) := (congrArg Prod.fst (Except.ok.inj hok)).symm
  rw [hcovs]
  simp

/-- **C4 (amended).**  Under the pairing precondition the call succeeds and
all four sequences have length exactly `lag_backward + lag_forward`; whenever
`lag_forward ≥ 1` (so that the ascending range `[-backward, forward)` actually
contains 0) and `normed = false`, the entry at index `lag_backward` is the
primitive applied to the lag-0 pooling (the unmodified concatenations). -/
theorem c4_lengths_and_lag_zero (cov_with_confidence : CovCI) (np_sqrt : ℚ → ℚ)
    (xs ys : List (List ℚ)) (lag_backward lag_forward : ℕ)
    (confidence : ℚ) (normed : Bool)
    (h : ((xs.zip ys).all fun xy => xy.1.length == xy.2.length) = true) :
    ∃ covs p_values lbs ubs,
      xcov_multi_with_confidence cov_with_confidence np_sqrt xs ys
          lag_backward lag_forward confidence normed
        = .ok (covs, p_values, lbs, ubs) ∧
      covs.length = lag_backward + lag_forward ∧
      p_values.length = lag_backward + lag_forward ∧
      lbs.length = lag_backward + lag_forward ∧
      ubs.length = lag_backward + lag_forward ∧
      (1 ≤ lag_forward → normed = false →
        covs.getD lag_backward 0
            = (cov_with_confidence xs.flatten ys.flatten confidence).1 ∧
          p_values.getD lag_backward 0
            = (cov_with_confidence xs.flatten ys.flatten confidence).2.1 ∧
          lbs.getD lag_backward 0
            = (cov_with_confidence xs.flatten ys.flatten confidence).2.2.1 ∧
          ubs.getD lag_backward 0
            = (cov_with_confidence xs.flatten ys.flatten confidence).2.2.2) := by
  unfold xcov_multi_with_confidence
  rw [if_neg (by simpa using h)]
  have hlag : ∀ g : (ℚ × ℚ × ℚ × ℚ) → ℚ,
      ((((List.range (lag_backward + lag_forward)).map
            fun i : ℕ => (i : ℤ) - (lag_backward : ℤ)).map
          fun lag =>
            cov_with_confidence (pooled xs ys lag).1 (pooled xs ys lag).2 confidence).map
        g).length = lag_backward + lag_forward := by
    intro g
    rw [List.length_map, List.length_map, List.length_map, List.length_range]
  cases normed with
  | true =>
    refine ⟨_, _, _, _, rfl, ?_, ?_, ?_, ?_, ?_⟩
    · rw [List.length_map]; exact hlag _
    · exact hlag _
    · rw [List.length_map]; exact hlag _
    · rw [List.length_map]; exact hlag _
    · intro _ hfalse
      cases hfalse
  | false =>
    refine ⟨_, _, _, _, rfl, hlag _, hlag _, hlag _, hlag _, ?_⟩
    intro hf _
    have hb : lag_backward < lag_backward + lag_forward := by omega
    have hget : (((List.range (lag_backward + lag_forward)).map
          fun i : ℕ => (i : ℤ) - (lag_backward : ℤ)).map
        fun lag =>
          cov_with_confidence (pooled xs ys lag).1 (pooled xs ys lag).2 confidence).getD
        lag_backward (0, 0, 0, 0)
      = cov_with_confidence xs.flatten ys.flatten confidence := by
      rw [getD_map_poly _ _ _ 0 _ (by rw [List.length_map, List.length_range]; exact hb),
        getD_map_poly _ _ _ 0 _ (by rw [List.length_range]; exact hb), getD_range hb]
      show cov_with_confidence (pooled xs ys ((lag_backward : ℤ) - lag_backward)).1
          (pooled xs ys ((lag_backward : ℤ) - lag_backward)).2 confidence = _
      rw [sub_self, pooled_zero]
    refine ⟨?_, ?_, ?_, ?_⟩ <;>
      · rw [getD_map_poly _ _ _ (0, 0, 0, 0) _
            (by rw [List.length_map, List.length_map, List.length_range]; omega), hget]

/-- **C4 witness**: `lag_backward = 1`, `lag_forward = 2` on `xs = ys = [[1, 2]]`
with a primitive reporting pooled lengths. -/
theorem c4_witness :
    ∃ covs p_values lbs ubs,
      xcov_multi_with_confidence (fun a b _ => ((a.length : ℚ), (b.length : ℚ), 0, 0))
          (fun q => q) [[1, 2]] [[1, 2]] 1 2 (95/100) false
        = .ok (covs, p_values, lbs, ubs) ∧
      covs.length = 1 + 2 ∧ p_values.length = 1 + 2 ∧
      lbs.length = 1 + 2 ∧ ubs.length = 1 + 2 ∧
      (1 ≤ 2 → false = false →
        covs.getD 1 0 = ((([[1, 2]] : List (List ℚ)).flatten.length : ℚ)) ∧
          p_values.getD 1 0 = ((([[1, 2]] : List (List ℚ)).flatten.length : ℚ)) ∧
          lbs.getD 1 0 = 0 ∧ ubs.getD 1 0 = 0) :=
  c4_lengths_and_lag_zero (fun a b _ => ((a.length : ℚ), (b.length : ℚ), 0, 0))
    (fun q => q) [[1, 2]] [[1, 2]] 1 2 (95/100) false (by decide)

/-- **C5.**  The `normed = true` run equals the `normed = false` run with every
covariance, lower bound and upper bound — but no p-value — divided by the one
constant `np.sqrt(var_x * var_y)`, where `var_x`/`var_y` are the self-covariance
variances of the full unfiltered concatenations, computed once for all lags. -/
theorem c5_normalization_scaling (cov_with_confidence : CovCI) (np_sqrt : ℚ → ℚ)
    (xs ys : List (List ℚ)) (lag_backward lag_forward : ℕ) (confidence : ℚ) :
    xcov_multi_with_confidence cov_with_confidence np_sqrt xs ys
        lag_backward lag_forward confidence true
      = Except.map (fun r =>
          (r.1.map (· / np_sqrt (np_cov_00 xs.flatten * np_cov_00 ys.flatten)),
           r.2.1,
           r.2.2.1.map (· / np_sqrt (np_cov_00 xs.flatten * np_cov_00 ys.flatten)),
           r.2.2.2.map (· / np_sqrt (np_cov_00 xs.flatten * np_cov_00 ys.flatten))))
        (xcov_multi_with_confidence cov_with_confidence np_sqrt xs ys
          lag_backward lag_forward confidence false) := by
  unfold xcov_multi_with_confidence
  split
  · rfl
  · rfl

/-- **C10.**  When `xs` and `ys` hold different numbers of series but every
zipped pair matches (here `xs` has one extra series), no shape-mismatch error
is raised — `zip` silently truncates — and at lag 0 all of `xs` is pooled
against all of `ys`, so the primitive receives arrays of unequal lengths
(4 versus 2), observed here through a primitive reporting its input lengths. -/
theorem c10_unequal_collections :
    xcov_multi_with_confidence (fun a b _ => ((a.length : ℚ), (b.length : ℚ), 0, 0))
        (fun q => q) [[1, 2], [3, 4]] [[1, 2]] 0 1 (95/100) false
      = .ok ([4], [2], [0], [0]) ∧
    (pooled [[1, 2], [3, 4]] [[1, 2]] 0).1.length = 4 ∧
    (pooled [[1, 2], [3, 4]] [[1, 2]] 0).2.length = 2 := by
  exact ⟨by rfl, by rfl, by rfl⟩

end TimeSeries
